import Mathlib

/-!
Verification of the `protoc-gen-go-redact` generator of `crypto-zero/go-kit`
(directory `logging/protoc-gen-go-redact`).

The development shallowly embeds:

* the generator-side data (`fieldDesc`, `messageDesc` from `template.go`),
* the per-field code emission performed by `redactTemplate.tpl` under Go
  `text/template` semantics (including the fact that evaluating a field name
  that does not exist on the data struct is a template execution error),
* the runtime behaviour of the generated `redact()` / `Redact()` methods on
  decoded message instances, where Go `map[string]any` values composed with
  `encoding/json.Marshal` are modelled as association lists that are
  canonicalized (keys sorted bytewise, last binding wins) at object-building
  time, exactly as `json.Marshal` renders Go maps,
* the global requirement propagation (`CollectGlobalRedactRequirements`),
  which is modelled from the specification because the package
  `internal/redact` that implements it is not part of the sources at hand.
-/

namespace GoRedact

/-! ## Byte-wise string order (Go `string <`, used by `json.Marshal` for map keys) -/

/-- Lexicographic comparison of character lists by code point; on valid UTF-8
this coincides with the Go byte-wise `string <=` that `encoding/json` uses to
sort map keys. -/
def chLe : List Char → List Char → Bool
  | [], _ => true
  | _ :: _, [] => false
  | a :: as, b :: bs =>
    if a.toNat < b.toNat then true
    else if b.toNat < a.toNat then false
    else chLe as bs

/-- Byte-wise `a <= b` on strings, as used to order JSON object keys. -/
def strLeB (a b : String) : Bool := chLe a.data b.data

theorem chLe_total : ∀ x y : List Char, chLe x y = true ∨ chLe y x = true := by
  intro x
  induction x with
  | nil => intro y; left; simp [chLe]
  | cons a as ih =>
    intro y
    cases y with
    | nil => right; simp [chLe]
    | cons b bs =>
      by_cases h1 : a.toNat < b.toNat
      · left; simp [chLe, h1]
      · by_cases h2 : b.toNat < a.toNat
        · right; simp [chLe, h1, h2]
        · have := ih bs
          rcases this with h | h
          · left; simp [chLe, h1, h2, h]
          · right; simp [chLe, h1, h2, h]

theorem chLe_trans : ∀ x y z : List Char,
    chLe x y = true → chLe y z = true → chLe x z = true := by
  intro x
  induction x with
  | nil => intro y z _ _; simp [chLe]
  | cons a as ih =>
    intro y z hxy hyz
    cases y with
    | nil => simp [chLe] at hxy
    | cons b bs =>
      cases z with
      | nil => simp [chLe] at hyz
      | cons c cs =>
        simp only [chLe] at hxy hyz ⊢
        by_cases hab : a.toNat < b.toNat <;> by_cases hba : b.toNat < a.toNat <;>
          by_cases hbc : b.toNat < c.toNat <;> by_cases hcb : c.toNat < b.toNat <;>
          simp [hab, hba, hbc, hcb] at hxy hyz ⊢ <;>
          first
          | omega
          | (constructor
             · omega
             · skip)
          | skip
        all_goals
          first
          | exact absurd hxy (by omega)
          | exact absurd hyz (by omega)
          | (have hac : ¬ a.toNat < c.toNat := by omega
             have hca : ¬ c.toNat < a.toNat := by omega
             simp [hac, hca]
             first
             | exact ih bs cs hxy hyz
             | exact ⟨by omega, ih bs cs hxy hyz⟩
             | exact ⟨by omega, ih bs cs hxy.2 hyz.2⟩)

theorem char_eq_of_toNat_eq {a b : Char} (h : a.toNat = b.toNat) : a = b :=
  Char.eq_of_val_eq (UInt32.eq_of_val_eq (Fin.ext h))

theorem chLe_antisymm : ∀ x y : List Char,
    chLe x y = true → chLe y x = true → x = y := by
  intro x
  induction x with
  | nil =>
    intro y _ hyx
    cases y with
    | nil => rfl
    | cons b bs => simp [chLe] at hyx
  | cons a as ih =>
    intro y hxy hyx
    cases y with
    | nil => simp [chLe] at hxy
    | cons b bs =>
      simp only [chLe] at hxy hyx
      by_cases hab : a.toNat < b.toNat
      · simp [hab] at hyx
        omega
      · by_cases hba : b.toNat < a.toNat
        · simp [hab, hba] at hxy
        · have hEq : a = b := char_eq_of_toNat_eq (by omega)
          have : as = bs := ih bs (by simpa [hab, hba] using hxy)
            (by simpa [hab, hba] using hyx)
          rw [hEq, this]

/-- The key order as a proposition, for use with the sorting lemmas of Mathlib. -/
def strLeP (a b : String) : Prop := strLeB a b = true

instance : DecidableRel strLeP := fun a b => by
  unfold strLeP; infer_instance

instance : IsTotal String strLeP :=
  ⟨fun a b => chLe_total a.data b.data⟩

instance : IsTrans String strLeP :=
  ⟨fun a b c hab hbc => chLe_trans a.data b.data c.data hab hbc⟩

theorem strLeB_antisymm {a b : String} (h1 : strLeB a b = true)
    (h2 : strLeB b a = true) : a = b := by
  have h : a.data = b.data := chLe_antisymm a.data b.data h1 h2
  cases a; cases b; exact congrArg String.mk h

instance : IsAntisymm String strLeP :=
  ⟨fun _ _ h1 h2 => strLeB_antisymm h1 h2⟩

/-! ## JSON rendering (the observable behaviour of `encoding/json.Marshal`) -/

/-- Opening brace character of a JSON object. -/
def lcurly : Char := Char.ofNat 123

/-- Closing brace character of a JSON object. -/
def rcurly : Char := Char.ofNat 125

/-- The string consisting of the single opening brace. -/
def lcurlyS : String := String.singleton lcurly

/-- The string consisting of the single closing brace. -/
def rcurlyS : String := String.singleton rcurly

/-- The empty-object literal returned by the generated `Redact()` on a nil
receiver. -/
def emptyObjLit : String := lcurlyS ++ rcurlyS

/-- Hexadecimal digit (lower case), as used in `\u00XX` escapes. -/
def hexDigit (n : Nat) : Char :=
  if n < 10 then Char.ofNat (48 + n) else Char.ofNat (87 + n)

/-- Escape of a single character inside a JSON string, following
`encoding/json` with its default HTML escaping (`<`, `>`, `&` become
`<`, `>`, `&`; quote and backslash are backslash-escaped;
newline, carriage return and tab use their short escapes; remaining control
characters and U+2028/U+2029 use `\u` escapes). -/
def jescChar (c : Char) : String :=
  let n := c.toNat
  if n = 34 then "\\\""
  else if n = 92 then "\\\\"
  else if n = 10 then "\\n"
  else if n = 13 then "\\r"
  else if n = 9 then "\\t"
  else if n = 60 then "\\u003c"
  else if n = 62 then "\\u003e"
  else if n = 38 then "\\u0026"
  else if n < 32 then
    String.mk ['\\', 'u', '0', '0', hexDigit (n / 16), hexDigit (n % 16)]
  else if n = 8232 then "\\u2028"
  else if n = 8233 then "\\u2029"
  else String.singleton c

/-- JSON string quoting as performed by `encoding/json.Marshal` on a Go
string value. -/
def jsonQuote (s : String) : String :=
  "\"" ++ String.join (s.data.map jescChar) ++ "\""

/-- Base64 alphabet (standard encoding), used by `encoding/json` for
`[]byte` values. -/
def b64Char (n : Nat) : Char :=
  if n < 26 then Char.ofNat (65 + n)
  else if n < 52 then Char.ofNat (97 + (n - 26))
  else if n < 62 then Char.ofNat (48 + (n - 52))
  else if n = 62 then '+'
  else '/'

/-- Standard base64 of a byte list, used by `encoding/json` to render
`[]byte` values as JSON strings. -/
def b64 : List Nat → String
  | [] => ""
  | [a] =>
    String.mk [b64Char (a / 4), b64Char ((a % 4) * 16), '=', '=']
  | [a, b] =>
    String.mk [b64Char (a / 4), b64Char ((a % 4) * 16 + b / 16),
      b64Char ((b % 16) * 4), '=']
  | a :: b :: c :: rest =>
    String.mk [b64Char (a / 4), b64Char ((a % 4) * 16 + b / 16),
      b64Char ((b % 16) * 4 + c / 64), b64Char (c % 64)] ++ b64 rest

/-- JSON value tree assembled by the generated `redact()` method.  Object
entry lists are kept in canonical form (bytewise-sorted distinct keys): this
is established at construction via `canonObj`, mirroring the fact that the
Go code builds `map[string]any` values whose rendering by `json.Marshal`
sorts the keys.  `raw` embeds an already-serialized document
(`json.RawMessage` holding compacted `protojson.Format` output). -/
inductive JVal where
  | null : JVal
  | str : String → JVal
  | num : Int → JVal
  | bool : Bool → JVal
  | arr : List JVal → JVal
  | obj : List (String × JVal) → JVal
  | raw : String → JVal

/-- Canonical object-entry list for rendering a Go `map[string]any`:
the distinct keys in bytewise ascending order, each paired with its last
binding in the insertion list (later `m[k] = v` assignments overwrite
earlier ones). -/
def canonObj (es : List (String × JVal)) : List (String × JVal) :=
  (List.insertionSort strLeP (es.map Prod.fst).dedup).map
    (fun k => (k, (List.lookup k es.reverse).getD JVal.null))

mutual

/-- Compact rendering of a `JVal`, following `encoding/json.Marshal`. -/
def jrender : JVal → String
  | .null => "null"
  | .str s => jsonQuote s
  | .num n => toString n
  | .bool b => if b then "true" else "false"
  | .arr xs => "[" ++ jrenderArr xs ++ "]"
  | .obj es => lcurlyS ++ jrenderObj es ++ rcurlyS
  | .raw s => s
termination_by v => (sizeOf v, 0)

/-- Comma-joined rendering of array elements. -/
def jrenderArr : List JVal → String
  | [] => ""
  | [x] => jrender x
  | x :: y :: rest => jrender x ++ "," ++ jrenderArr (y :: rest)
termination_by xs => (sizeOf xs, 1)

/-- Comma-joined rendering of object entries (assumed already canonical). -/
def jrenderObj : List (String × JVal) → String
  | [] => ""
  | [(k, v)] => jsonQuote k ++ ":" ++ jrender v
  | (k, v) :: e :: rest =>
    jsonQuote k ++ ":" ++ jrender v ++ "," ++ jrenderObj (e :: rest)
termination_by es => (sizeOf es, 1)

end

/-! ### Properties of `canonObj` -/

theorem lookup_eq_of_perm {α β : Type} [DecidableEq α] {l₁ l₂ : List (α × β)}
    (p : l₁.Perm l₂) :
    (l₁.map Prod.fst).Nodup → ∀ k, List.lookup k l₁ = List.lookup k l₂ := by
  induction p with
  | nil => intro _ _; rfl
  | cons x p ih =>
    intro h k
    obtain ⟨kx, vx⟩ := x
    simp only [List.map_cons, List.nodup_cons] at h
    simp only [List.lookup]
    cases hkk : k == kx
    · exact ih h.2 k
    · rfl
  | swap x y l =>
    intro h k
    obtain ⟨kx, vx⟩ := x
    obtain ⟨ky, vy⟩ := y
    have hne : ky ≠ kx := by
      simp only [List.map_cons, List.nodup_cons, List.mem_cons] at h
      intro hEq
      exact h.1 (Or.inl hEq)
    simp only [List.lookup]
    cases hky : k == ky <;> cases hkx : k == kx <;> simp_all
  | trans p₁ p₂ ih₁ ih₂ =>
    intro h k
    have h₂ := ((p₁.map Prod.fst).nodup_iff).mp h
    exact (ih₁ h k).trans (ih₂ h₂ k)

theorem canonObj_perm {es₁ es₂ : List (String × JVal)} (p : es₁.Perm es₂)
    (h : (es₁.map Prod.fst).Nodup) : canonObj es₁ = canonObj es₂ := by
  have hk : (es₁.map Prod.fst).Perm (es₂.map Prod.fst) := p.map Prod.fst
  have hsorteq :
      List.insertionSort strLeP (es₁.map Prod.fst).dedup =
        List.insertionSort strLeP (es₂.map Prod.fst).dedup :=
    List.eq_of_perm_of_sorted (r := strLeP)
      (((List.perm_insertionSort _ _).trans hk.dedup).trans
        (List.perm_insertionSort _ _).symm)
      (List.sorted_insertionSort _ _) (List.sorted_insertionSort _ _)
  have hrev : es₁.reverse.Perm es₂.reverse :=
    (es₁.reverse_perm).trans (p.trans (es₂.reverse_perm).symm)
  have hrevnd : (es₁.reverse.map Prod.fst).Nodup := by
    rw [List.map_reverse]
    exact (List.nodup_reverse).mpr h
  have hlook : ∀ k, List.lookup k es₁.reverse = List.lookup k es₂.reverse :=
    lookup_eq_of_perm hrev hrevnd
  unfold canonObj
  rw [hsorteq]
  apply List.map_congr_left
  intro k _
  rw [hlook k]

theorem canonObj_keys (es : List (String × JVal)) :
    (canonObj es).map Prod.fst =
      List.insertionSort strLeP (es.map Prod.fst).dedup := by
  unfold canonObj
  rw [List.map_map]
  have hc : (Prod.fst ∘ fun k => (k, (List.lookup k es.reverse).getD JVal.null)) =
      id := rfl
  rw [hc, List.map_id]

theorem canonObj_keys_sorted (es : List (String × JVal)) :
    ((canonObj es).map Prod.fst).Sorted strLeP := by
  rw [canonObj_keys]
  exact List.sorted_insertionSort _ _

theorem canonObj_keys_nodup (es : List (String × JVal)) :
    ((canonObj es).map Prod.fst).Nodup := by
  rw [canonObj_keys]
  exact ((List.perm_insertionSort _ _).nodup_iff).mpr (List.nodup_dedup _)

theorem canonObj_keys_mem (es : List (String × JVal)) (k : String) :
    k ∈ (canonObj es).map Prod.fst ↔ k ∈ es.map Prod.fst := by
  rw [canonObj_keys]
  rw [(List.perm_insertionSort strLeP _).mem_iff]
  exact List.mem_dedup

/-! ## Generator-side data: `fieldDesc` / `messageDesc` from `template.go` -/

/-- Mirror of the `fieldDesc` struct in `template.go`.  Field names match the
Go struct; the Lean default values are the Go zero values (the missing
builder fills the documented defaults, e.g. `StringMask` becomes `"*"` when
no `string_mask` option is declared, and leaves the numeric masks at `0`).
`DoubleMask` is modelled at integral double values only; no claim under
verification depends on non-integral floating-point payloads. -/
structure fieldDesc where
  GoName : String
  JSONName : String
  Redact : Bool := false
  IsMessage : Bool := false
  IsRepeated : Bool := false
  IsInteger : Bool := false
  IsFloat : Bool := false
  IsBool : Bool := false
  IsBytes : Bool := false
  IsEnum : Bool := false
  IsMap : Bool := false
  IsOneof : Bool := false
  MapValueIsMessage : Bool := false
  StringMask : String := ""
  IntMask : Int := 0
  DoubleMask : Int := 0
  BoolMask : Bool := false
  BytesMask : String := ""
  EnumMask : Int := 0
deriving Repr, DecidableEq

/-- Mirror of the `messageDesc` struct in `template.go`. -/
structure messageDesc where
  Name : String
  Fields : List fieldDesc
deriving Repr, DecidableEq

/-- Struct-field lookup performed by `text/template` when evaluating a
boolean pipeline `.X` against a `*fieldDesc` value: the declared boolean
fields of the struct resolve to their values, any other name is a template
execution error (`none`). -/
def fieldDescField (f : fieldDesc) : String → Option Bool
  | "Redact" => some f.Redact
  | "IsMessage" => some f.IsMessage
  | "IsRepeated" => some f.IsRepeated
  | "IsInteger" => some f.IsInteger
  | "IsFloat" => some f.IsFloat
  | "IsBool" => some f.IsBool
  | "IsBytes" => some f.IsBytes
  | "IsEnum" => some f.IsEnum
  | "IsMap" => some f.IsMap
  | "IsOneof" => some f.IsOneof
  | "MapValueIsMessage" => some f.MapValueIsMessage
  | _ => none

/-- Evaluation of a boolean `.X` condition by `text/template`: a missing
struct field aborts template execution with an error (and `execute()` in
`template.go` panics on that error). -/
def look (f : fieldDesc) (n : String) : Except String Bool :=
  match fieldDescField f n with
  | some b => Except.ok b
  | none =>
    Except.error ("cannot evaluate field " ++ n ++ " in type *main.fieldDesc")

/-- Scalar categories of a field, used to recover the Go zero value that
`x.GetF()` returns for an unset oneof scalar alternative. -/
inductive ScalarKind where
  | str
  | int
  | flt
  | bool
  | bytes
  | enum
deriving Repr, DecidableEq

/-- Scalar category derived from the `fieldDesc` flags (the template treats
a field with none of the specific flags as a string). -/
def scalarKindOf (f : fieldDesc) : ScalarKind :=
  if f.IsInteger then .int
  else if f.IsFloat then .flt
  else if f.IsBool then .bool
  else if f.IsBytes then .bytes
  else if f.IsEnum then .enum
  else .str

/-- JSON rendering of the Go zero value of a scalar category (what
`m[k] = x.GetF()` contributes when the oneof alternative is unset; a nil
`[]byte` marshals as JSON null). -/
def zeroJ : ScalarKind → JVal
  | .int => .num 0
  | .flt => .num 0
  | .bool => .bool false
  | .bytes => .null
  | .enum => .num 0
  | .str => .str ""

/-- The per-field statement shape emitted by `redactTemplate.tpl` for one
field of a message: one constructor per branch of the template. -/
inductive EmitRule where
  | maskRepeated (k : String)
  | maskMap (k : String)
  | maskMessage (k : String)
  | maskInt (k : String) (v : Int)
  | maskFloat (k : String) (v : Int)
  | maskBool (k : String) (v : Bool)
  | maskBytes (k : String) (v : String)
  | maskEnum (k : String) (v : Int)
  | maskString (k : String) (v : String)
  | mapField (k g : String) (valueIsMessage : Bool)
  | repMsgField (k g : String)
  | repScalarField (k g : String)
  | oneofMsgField (k g : String)
  | singularMsgField (k g : String)
  | oneofScalarField (k g : String) (zkind : ScalarKind)
  | plainScalarField (k g : String)
deriving Repr, DecidableEq

/-- Faithful compilation of the per-field block of `redactTemplate.tpl`
under `text/template` semantics: every `if`/`else if` condition is resolved
through `look`, in the textual order of the template.  The redact=true chain
consults `.IsNumeric`, a name `fieldDesc` does not declare (the struct
declares `IsInteger`), so execution fails there. -/
def tplFieldRule (f : fieldDesc) : Except String EmitRule := do
  if (← look f "Redact") then
    if (← look f "IsRepeated") then pure (.maskRepeated f.JSONName)
    else if (← look f "IsMap") then pure (.maskMap f.JSONName)
    else if (← look f "IsMessage") then pure (.maskMessage f.JSONName)
    else if (← look f "IsNumeric") then pure (.maskInt f.JSONName f.IntMask)
    else if (← look f "IsFloat") then pure (.maskFloat f.JSONName f.DoubleMask)
    else if (← look f "IsBool") then pure (.maskBool f.JSONName f.BoolMask)
    else if (← look f "IsBytes") then pure (.maskBytes f.JSONName f.BytesMask)
    else if (← look f "IsEnum") then pure (.maskEnum f.JSONName f.EnumMask)
    else pure (.maskString f.JSONName f.StringMask)
  else if (← look f "IsMap") then
    pure (.mapField f.JSONName f.GoName f.MapValueIsMessage)
  else if (← look f "IsMessage") && (← look f "IsRepeated") then
    pure (.repMsgField f.JSONName f.GoName)
  else if (← look f "IsRepeated") then
    pure (.repScalarField f.JSONName f.GoName)
  else if (← look f "IsMessage") then
    if (← look f "IsOneof") then pure (.oneofMsgField f.JSONName f.GoName)
    else pure (.singularMsgField f.JSONName f.GoName)
  else if (← look f "IsOneof") then
    pure (.oneofScalarField f.JSONName f.GoName (scalarKindOf f))
  else pure (.plainScalarField f.JSONName f.GoName)

/-- Behaviour-level compilation of the same template chain, total: the one
name the template consults that `fieldDesc` does not declare, `.IsNumeric`,
is resolved to the integer flag `IsInteger` of the struct — the resolution
that the tests and generated testdata of the package exhibit (see the claim about the
`.IsNumeric` slip). -/
def genFieldRule (f : fieldDesc) : EmitRule :=
  if f.Redact then
    if f.IsRepeated then .maskRepeated f.JSONName
    else if f.IsMap then .maskMap f.JSONName
    else if f.IsMessage then .maskMessage f.JSONName
    else if f.IsInteger then .maskInt f.JSONName f.IntMask
    else if f.IsFloat then .maskFloat f.JSONName f.DoubleMask
    else if f.IsBool then .maskBool f.JSONName f.BoolMask
    else if f.IsBytes then .maskBytes f.JSONName f.BytesMask
    else if f.IsEnum then .maskEnum f.JSONName f.EnumMask
    else .maskString f.JSONName f.StringMask
  else if f.IsMap then .mapField f.JSONName f.GoName f.MapValueIsMessage
  else if f.IsMessage && f.IsRepeated then .repMsgField f.JSONName f.GoName
  else if f.IsRepeated then .repScalarField f.JSONName f.GoName
  else if f.IsMessage then
    if f.IsOneof then .oneofMsgField f.JSONName f.GoName
    else .singularMsgField f.JSONName f.GoName
  else if f.IsOneof then .oneofScalarField f.JSONName f.GoName (scalarKindOf f)
  else .plainScalarField f.JSONName f.GoName

/-- Wherever the faithful template compilation succeeds, the behaviour-level
compilation produces the same rule. -/
theorem tpl_gen_agree {f : fieldDesc} {r : EmitRule}
    (h : tplFieldRule f = Except.ok r) : genFieldRule f = r := by
  obtain ⟨gn, jn, red, im, irep, ii, ifl, ib, iby, ie, imap, io, mvm,
    sm, intm, dm, bm, bym, em⟩ := f
  cases red <;> cases irep <;> cases imap <;> cases im <;> cases io <;>
    first
    | exact Except.noConfusion h
    | exact Except.ok.inj h

/-! ## Runtime model of decoded message instances -/

/-- Go map key values admissible in proto map fields; `keyText` is
`fmt.Sprintf("%v", k)` on them. -/
inductive MapKey where
  | str (s : String)
  | int (n : Int)
  | bool (b : Bool)
deriving Repr, DecidableEq

/-- The canonical textual form `fmt.Sprintf("%v", k)` of a map key. -/
def keyText : MapKey → String
  | .str s => s
  | .int n => toString n
  | .bool b => if b then "true" else "false"

/-- Runtime value tree of a decoded instance.  `vNull` is a nil pointer (a
nil singular/oneof message, or an unset oneof alternative as seen through
its getter); `vMsg` carries the type name of the message — used for the
`interface{ redact() map[string]any }` type assertion — and its field slots
keyed by Go field name; `vMap` carries entries in some iteration order
(Go map iteration order is arbitrary).  `vFlt` restricts floating-point
payloads to integral doubles, which is all the claims exercise. -/
inductive GVal where
  | vNull
  | vStr (s : String)
  | vInt (n : Int)
  | vFlt (n : Int)
  | vBool (b : Bool)
  | vBytes (bs : List Nat)
  | vEnum (n : Int)
  | vMsg (typeName : String) (slots : List (String × GVal))
  | vList (xs : List GVal)
  | vMap (es : List (MapKey × GVal))

/-- JSON rendering by `encoding/json.Marshal` of a plain Go scalar stored in
the output map (`[]byte` renders as its standard base64; a named enum type
renders as its numeric value).  Non-scalar shapes do not reach this
function in instances that conform to their schema. -/
def scalarJ : GVal → JVal
  | .vStr s => .str s
  | .vInt n => .num n
  | .vFlt n => .num n
  | .vBool b => .bool b
  | .vBytes bs => .str (b64 bs)
  | .vEnum n => .num n
  | .vNull => .null
  | .vMsg _ _ => .null
  | .vList _ => .null
  | .vMap _ => .null

/-- Reading the struct field `x.F` of an instance. -/
def slotGet : List (String × GVal) → String → Option GVal
  | [], _ => none
  | (n, v) :: rest, g => if n = g then some v else slotGet rest g

theorem slotGet_sizeOf {sl : List (String × GVal)} {g : String} {v : GVal}
    (h : slotGet sl g = some v) : sizeOf v < sizeOf sl := by
  induction sl with
  | nil => simp [slotGet] at h
  | cons p rest ih =>
    obtain ⟨n, w⟩ := p
    by_cases hng : n = g
    · simp only [slotGet, if_pos hng, Option.some.injEq] at h
      subst h
      simp only [List.cons.sizeOf_spec, Prod.mk.sizeOf_spec]
      omega
    · simp only [slotGet, if_neg hng] at h
      have := ih h
      simp only [List.cons.sizeOf_spec, Prod.mk.sizeOf_spec]
      omega

/-- Static context of one generation run, as seen by a generated `redact()`
method at runtime: the classified fields of every message type of the
compilation unit, the set of types that received a generated redact
capability (so that the `interface{ redact() map[string]any }` assertion
succeeds exactly on them), and the observable output of
`protojson.Format` — compacted by the `RawMessage` handling of `json.Marshal` —
on values of foreign types.  `protojson` output is fixed within one binary
(its whitespace randomization is seeded from the binary), hence a plain
function. -/
structure Env where
  schema : List (String × List fieldDesc)
  hasRedact : String → Bool
  foreignFmt : GVal → String

/-- The classified field list of a message type. -/
def Env.fieldsOf (e : Env) (n : String) : List fieldDesc :=
  (List.lookup n e.schema).getD []

mutual

/-- The body of the generated `redact()` method: the `range .Fields` of the
template, emitting the per-field statements in declaration order into the
fresh `m := make(map[string]any)`. -/
def bodyFields (env : Env) (fs : List fieldDesc) (sl : List (String × GVal)) :
    List (String × JVal) :=
  match fs with
  | [] => []
  | f :: rest => applyRule env (genFieldRule f) sl ++ bodyFields env rest sl
termination_by (sizeOf sl, 2, sizeOf fs)

/-- Runtime effect of one emitted per-field statement on the output map:
the produced entries (empty when the guard of the statement suppresses the
field). -/
def applyRule (env : Env) (r : EmitRule) (sl : List (String × GVal)) :
    List (String × JVal) :=
  match r with
  | .maskRepeated k => [(k, .arr [])]
  | .maskMap k => [(k, .obj [])]
  | .maskMessage k => [(k, .null)]
  | .maskInt k v => [(k, .num v)]
  | .maskFloat k v => [(k, .num v)]
  | .maskBool k v => [(k, .bool v)]
  | .maskBytes k v => [(k, .str v)]
  | .maskEnum k v => [(k, .num v)]
  | .maskString k v => [(k, .str v)]
  | .mapField k g vim =>
    match hs : slotGet sl g with
    | some (.vMap es) =>
      if es.isEmpty then []
      else if vim then [(k, .obj (canonObj (mapMsgEntries env es)))]
      else [(k, .obj (canonObj (es.map (fun e => (keyText e.1, scalarJ e.2)))))]
    | _ => []
  | .repMsgField k g =>
    match hs : slotGet sl g with
    | some (.vList xs) =>
      if xs.isEmpty then [] else [(k, .arr (repItems env xs))]
    | _ => []
  | .repScalarField k g =>
    match hs : slotGet sl g with
    | some (.vList xs) =>
      if xs.isEmpty then [] else [(k, .arr (xs.map scalarJ))]
    | _ => []
  | .oneofMsgField k g =>
    match hs : slotGet sl g with
    | some (.vMsg n isl) => [(k, msgJ env (.vMsg n isl))]
    | _ => []
  | .singularMsgField k g =>
    match hs : slotGet sl g with
    | some (.vMsg n isl) => [(k, msgJ env (.vMsg n isl))]
    | _ => []
  | .oneofScalarField k g zk =>
    match hs : slotGet sl g with
    | some .vNull => [(k, zeroJ zk)]
    | some (.vStr s) => [(k, scalarJ (.vStr s))]
    | some (.vInt n) => [(k, scalarJ (.vInt n))]
    | some (.vFlt n) => [(k, scalarJ (.vFlt n))]
    | some (.vBool b) => [(k, scalarJ (.vBool b))]
    | some (.vBytes bs) => [(k, scalarJ (.vBytes bs))]
    | some (.vEnum n) => [(k, scalarJ (.vEnum n))]
    | _ => []
  | .plainScalarField k g =>
    match hs : slotGet sl g with
    | some (.vStr s) => [(k, scalarJ (.vStr s))]
    | some (.vInt n) => [(k, scalarJ (.vInt n))]
    | some (.vFlt n) => [(k, scalarJ (.vFlt n))]
    | some (.vBool b) => [(k, scalarJ (.vBool b))]
    | some (.vBytes bs) => [(k, scalarJ (.vBytes bs))]
    | some (.vEnum n) => [(k, scalarJ (.vEnum n))]
    | _ => []
termination_by (sizeOf sl, 1, 0)
decreasing_by
  all_goals
    have h1 := slotGet_sizeOf hs
    simp only [GVal.vMap.sizeOf_spec, GVal.vList.sizeOf_spec,
      GVal.vMsg.sizeOf_spec] at h1
    simp_wf
    first
    | (apply Prod.Lex.left; omega)
    | omega

/-- Elements assigned into `items := make([]any, len(x.F))` for a
non-redacted repeated message field: a nil element leaves its
pre-allocated slot at `nil`, which `json.Marshal` renders as JSON null. -/
def repItems (env : Env) (xs : List GVal) : List JVal :=
  match xs with
  | [] => []
  | x :: rest =>
    (match x with
     | .vMsg n isl => msgJ env (.vMsg n isl)
     | _ => JVal.null) :: repItems env rest
termination_by (sizeOf xs, 1, 0)

/-- Entries inserted into `mapVal` for a non-redacted map field with
message values: nil values are skipped (their key is not inserted). -/
def mapMsgEntries (env : Env) (es : List (MapKey × GVal)) :
    List (String × JVal) :=
  match es with
  | [] => []
  | (mkey, v) :: rest =>
    match v with
    | .vMsg n isl =>
      (keyText mkey, msgJ env (.vMsg n isl)) :: mapMsgEntries env rest
    | _ => mapMsgEntries env rest
termination_by (sizeOf es, 1, 0)

/-- Value stored for a non-nil message: `r.redact()` when the dynamic type
has the generated capability, else raw embedded `protojson.Format`
output. -/
def msgJ (env : Env) (v : GVal) : JVal :=
  match v with
  | .vMsg n isl =>
    if env.hasRedact n then .obj (canonObj (bodyFields env (env.fieldsOf n) isl))
    else .raw (env.foreignFmt (.vMsg n isl))
  | .vNull => .null
  | .vStr _ => .null
  | .vInt _ => .null
  | .vFlt _ => .null
  | .vBool _ => .null
  | .vBytes _ => .null
  | .vEnum _ => .null
  | .vList _ => .null
  | .vMap _ => .null
termination_by (sizeOf v, 3, 0)

end

/-- The generated `Redact()` method: `"{}"` on a nil receiver, otherwise
`json.Marshal` of the map built by `redact()`. -/
def RedactMethod (env : Env) (x : Option GVal) : String :=
  match x with
  | none => emptyObjLit
  | some (.vMsg n sl) =>
    jrender (.obj (canonObj (bodyFields env (env.fieldsOf n) sl)))
  | some _ => emptyObjLit

/-- Per-entry processing of a message-valued map field (the loop body of
the map branch of the template): nil values are skipped, non-nil values are
redacted or foreign-formatted. -/
def mapMsgFun (env : Env) (e : MapKey × GVal) : Option (String × JVal) :=
  match e.2 with
  | .vMsg n isl => some (keyText e.1, msgJ env (.vMsg n isl))
  | _ => none

theorem mapMsgEntries_eq_filterMap (env : Env) (es : List (MapKey × GVal)) :
    mapMsgEntries env es = es.filterMap (mapMsgFun env) := by
  induction es with
  | nil => simp [mapMsgEntries]
  | cons e rest ih =>
    obtain ⟨mkey, v⟩ := e
    cases v <;> simp [mapMsgEntries, mapMsgFun, ih]

/-! ## Canonicalization of instances (map iteration order) -/

/-- Entry order used to canonicalize map iteration order: bytewise order of
the textual keys. -/
def entLe (a b : MapKey × GVal) : Prop := strLeP (keyText a.1) (keyText b.1)

instance : DecidableRel entLe := fun a b => by
  unfold entLe strLeP
  infer_instance

mutual

/-- Canonical form of an instance: the entries of every map are recursively
normalized and sorted by textual key.  Two in-memory representations of
the same decoded instance (which may present their maps in different
iteration orders) have the same canonical form. -/
def normG : GVal → GVal
  | .vMsg n sl => .vMsg n (normSlots sl)
  | .vList xs => .vList (normList xs)
  | .vMap es => .vMap (List.insertionSort entLe (normEntries es))
  | .vNull => .vNull
  | .vStr s => .vStr s
  | .vInt n => .vInt n
  | .vFlt n => .vFlt n
  | .vBool b => .vBool b
  | .vBytes bs => .vBytes bs
  | .vEnum n => .vEnum n
termination_by v => sizeOf v

/-- Slot-wise normalization of the fields of a message. -/
def normSlots : List (String × GVal) → List (String × GVal)
  | [] => []
  | (n, v) :: rest => (n, normG v) :: normSlots rest
termination_by sl => sizeOf sl

/-- Element-wise normalization of a repeated field. -/
def normList : List GVal → List GVal
  | [] => []
  | x :: rest => normG x :: normList rest
termination_by xs => sizeOf xs

/-- Value-wise normalization of map entries (before sorting them). -/
def normEntries : List (MapKey × GVal) → List (MapKey × GVal)
  | [] => []
  | (k, v) :: rest => (k, normG v) :: normEntries rest
termination_by es => sizeOf es

end

mutual

/-- Well-formedness of an instance: every map field, at every depth, has
pairwise distinct textual keys.  Every value decoded from a real proto
message satisfies this (one Go map cannot hold two equal keys, and the
textualization is injective on keys of one proto key type). -/
def wfG : GVal → Bool
  | .vMsg _ sl => wfSlots sl
  | .vList xs => wfList xs
  | .vMap es =>
    decide ((es.map (fun e => keyText e.1)).Nodup) && wfEntries es
  | .vNull => true
  | .vStr _ => true
  | .vInt _ => true
  | .vFlt _ => true
  | .vBool _ => true
  | .vBytes _ => true
  | .vEnum _ => true
termination_by v => sizeOf v

/-- Well-formedness of message slots. -/
def wfSlots : List (String × GVal) → Bool
  | [] => true
  | (_, v) :: rest => wfG v && wfSlots rest
termination_by sl => sizeOf sl

/-- Well-formedness of repeated elements. -/
def wfList : List GVal → Bool
  | [] => true
  | x :: rest => wfG x && wfList rest
termination_by xs => sizeOf xs

/-- Well-formedness of map entries. -/
def wfEntries : List (MapKey × GVal) → Bool
  | [] => true
  | (_, v) :: rest => wfG v && wfEntries rest
termination_by es => sizeOf es

end

theorem slotGet_norm (sl : List (String × GVal)) (g : String) :
    slotGet (normSlots sl) g = (slotGet sl g).map normG := by
  induction sl with
  | nil => simp [slotGet, normSlots]
  | cons p rest ih =>
    obtain ⟨n, v⟩ := p
    by_cases hng : n = g <;> simp [slotGet, normSlots, hng, ih]

theorem slotGet_wf {sl : List (String × GVal)} {g : String} {v : GVal}
    (hwf : wfSlots sl = true) (h : slotGet sl g = some v) : wfG v = true := by
  induction sl with
  | nil => simp [slotGet] at h
  | cons p rest ih =>
    obtain ⟨n, w⟩ := p
    simp only [wfSlots, Bool.and_eq_true] at hwf
    by_cases hng : n = g
    · simp only [slotGet, if_pos hng, Option.some.injEq] at h
      exact h ▸ hwf.1
    · simp only [slotGet, if_neg hng] at h
      exact ih hwf.2 h

theorem scalarJ_norm (v : GVal) : scalarJ (normG v) = scalarJ v := by
  cases v <;> simp [normG, scalarJ]

theorem normList_map_scalarJ (xs : List GVal) :
    (normList xs).map scalarJ = xs.map scalarJ := by
  induction xs with
  | nil => simp [normList]
  | cons x rest ih => simp [normList, scalarJ_norm, ih]

theorem normList_length (xs : List GVal) : (normList xs).length = xs.length := by
  induction xs with
  | nil => simp [normList]
  | cons x rest ih => simp [normList, ih]

theorem normEntries_keys (es : List (MapKey × GVal)) :
    (normEntries es).map (fun e => keyText e.1) =
      es.map (fun e => keyText e.1) := by
  induction es with
  | nil => simp [normEntries]
  | cons e rest ih =>
    obtain ⟨k, v⟩ := e
    simp [normEntries, ih]

theorem normEntries_length (es : List (MapKey × GVal)) :
    (normEntries es).length = es.length := by
  induction es with
  | nil => simp [normEntries]
  | cons e rest ih =>
    obtain ⟨k, v⟩ := e
    simp [normEntries, ih]

theorem filterMap_keys_sublist (env : Env) (es : List (MapKey × GVal)) :
    ((es.filterMap (mapMsgFun env)).map Prod.fst).Sublist
      (es.map (fun e => keyText e.1)) := by
  induction es with
  | nil => simp
  | cons e rest ih =>
    obtain ⟨k, v⟩ := e
    cases v <;> simp [mapMsgFun] <;>
      first
      | exact ih
      | exact ih.cons _
      | exact ih.cons₂ _

theorem normEntries_map_scalar (es : List (MapKey × GVal)) :
    (normEntries es).map (fun e => (keyText e.1, scalarJ e.2)) =
      es.map (fun e => (keyText e.1, scalarJ e.2)) := by
  induction es with
  | nil => simp [normEntries]
  | cons e rest ih =>
    obtain ⟨k, v⟩ := e
    simp [normEntries, scalarJ_norm, ih]

/-! ### Unfolding equations for the slot-reading rules -/

theorem applyRule_mapField (env : Env) (k g : String) (vim : Bool)
    (sl : List (String × GVal)) :
    applyRule env (.mapField k g vim) sl =
      match slotGet sl g with
      | some (.vMap es) =>
        if es.isEmpty then []
        else if vim then [(k, .obj (canonObj (mapMsgEntries env es)))]
        else
          [(k, .obj (canonObj (es.map (fun e => (keyText e.1, scalarJ e.2)))))]
      | _ => [] := by
  rw [applyRule]
  cases hx : slotGet sl g with
  | none => rfl
  | some v => cases v <;> rfl

theorem applyRule_repMsgField (env : Env) (k g : String)
    (sl : List (String × GVal)) :
    applyRule env (.repMsgField k g) sl =
      match slotGet sl g with
      | some (.vList xs) =>
        if xs.isEmpty then [] else [(k, .arr (repItems env xs))]
      | _ => [] := by
  rw [applyRule]
  cases hx : slotGet sl g with
  | none => rfl
  | some v => cases v <;> rfl

theorem applyRule_repScalarField (env : Env) (k g : String)
    (sl : List (String × GVal)) :
    applyRule env (.repScalarField k g) sl =
      match slotGet sl g with
      | some (.vList xs) =>
        if xs.isEmpty then [] else [(k, .arr (xs.map scalarJ))]
      | _ => [] := by
  rw [applyRule]
  cases hx : slotGet sl g with
  | none => rfl
  | some v => cases v <;> rfl

theorem applyRule_oneofMsgField (env : Env) (k g : String)
    (sl : List (String × GVal)) :
    applyRule env (.oneofMsgField k g) sl =
      match slotGet sl g with
      | some (.vMsg n isl) => [(k, msgJ env (.vMsg n isl))]
      | _ => [] := by
  rw [applyRule]
  cases hx : slotGet sl g with
  | none => rfl
  | some v => cases v <;> rfl

theorem applyRule_singularMsgField (env : Env) (k g : String)
    (sl : List (String × GVal)) :
    applyRule env (.singularMsgField k g) sl =
      match slotGet sl g with
      | some (.vMsg n isl) => [(k, msgJ env (.vMsg n isl))]
      | _ => [] := by
  rw [applyRule]
  cases hx : slotGet sl g with
  | none => rfl
  | some v => cases v <;> rfl

theorem applyRule_oneofScalarField (env : Env) (k g : String)
    (zk : ScalarKind) (sl : List (String × GVal)) :
    applyRule env (.oneofScalarField k g zk) sl =
      match slotGet sl g with
      | some .vNull => [(k, zeroJ zk)]
      | some (.vStr s) => [(k, scalarJ (.vStr s))]
      | some (.vInt n) => [(k, scalarJ (.vInt n))]
      | some (.vFlt n) => [(k, scalarJ (.vFlt n))]
      | some (.vBool b) => [(k, scalarJ (.vBool b))]
      | some (.vBytes bs) => [(k, scalarJ (.vBytes bs))]
      | some (.vEnum n) => [(k, scalarJ (.vEnum n))]
      | _ => [] := by
  rw [applyRule]
  cases hx : slotGet sl g with
  | none => rfl
  | some v => cases v <;> rfl

theorem applyRule_plainScalarField (env : Env) (k g : String)
    (sl : List (String × GVal)) :
    applyRule env (.plainScalarField k g) sl =
      match slotGet sl g with
      | some (.vStr s) => [(k, scalarJ (.vStr s))]
      | some (.vInt n) => [(k, scalarJ (.vInt n))]
      | some (.vFlt n) => [(k, scalarJ (.vFlt n))]
      | some (.vBool b) => [(k, scalarJ (.vBool b))]
      | some (.vBytes bs) => [(k, scalarJ (.vBytes bs))]
      | some (.vEnum n) => [(k, scalarJ (.vEnum n))]
      | _ => [] := by
  rw [applyRule]
  cases hx : slotGet sl g with
  | none => rfl
  | some v => cases v <;> rfl

theorem msgJ_vMsg (env : Env) (n : String) (isl : List (String × GVal)) :
    msgJ env (.vMsg n isl) =
      if env.hasRedact n then
        .obj (canonObj (bodyFields env (env.fieldsOf n) isl))
      else .raw (env.foreignFmt (.vMsg n isl)) := by
  rw [msgJ]

theorem repItems_nil (env : Env) : repItems env [] = [] := by
  rw [repItems]

theorem repItems_cons (env : Env) (x : GVal) (rest : List GVal) :
    repItems env (x :: rest) =
      (match x with
       | .vMsg n isl => msgJ env (.vMsg n isl)
       | _ => JVal.null) :: repItems env rest := by
  cases x <;> rw [repItems] <;> intro n isl h <;> exact GVal.noConfusion h

theorem mapMsgEntries_nil (env : Env) : mapMsgEntries env [] = [] := by
  rw [mapMsgEntries]

theorem mapMsgEntries_cons (env : Env) (mkey : MapKey) (v : GVal)
    (rest : List (MapKey × GVal)) :
    mapMsgEntries env ((mkey, v) :: rest) =
      (match v with
       | .vMsg n isl =>
         (keyText mkey, msgJ env (.vMsg n isl)) :: mapMsgEntries env rest
       | _ => mapMsgEntries env rest) := by
  cases v <;> rw [mapMsgEntries] <;> intro n isl h <;> exact GVal.noConfusion h

theorem bodyFields_nil (env : Env) (sl : List (String × GVal)) :
    bodyFields env [] sl = [] := by
  rw [bodyFields]

theorem bodyFields_cons (env : Env) (f : fieldDesc) (rest : List fieldDesc)
    (sl : List (String × GVal)) :
    bodyFields env (f :: rest) sl =
      applyRule env (genFieldRule f) sl ++ bodyFields env rest sl := by
  rw [bodyFields]

theorem isEmpty_eq_of_length_eq {α β : Type} {l₁ : List α} {l₂ : List β}
    (h : l₁.length = l₂.length) : l₁.isEmpty = l₂.isEmpty := by
  cases l₁ <;> cases l₂ <;> simp_all

/-- Combined statement of the size-bounded invariance of the generated
code semantics under canonicalization of map iteration order. -/
def NormInv (env : Env) (N : Nat) : Prop :=
  (∀ sl : List (String × GVal), sizeOf sl ≤ N → wfSlots sl = true →
    ∀ r, applyRule env r (normSlots sl) = applyRule env r sl)
  ∧ (∀ sl : List (String × GVal), sizeOf sl ≤ N → wfSlots sl = true →
    ∀ fs, bodyFields env fs (normSlots sl) = bodyFields env fs sl)
  ∧ (∀ v : GVal, sizeOf v ≤ N → wfG v = true →
    msgJ env (normG v) = msgJ env v)
  ∧ (∀ xs : List GVal, sizeOf xs ≤ N → wfList xs = true →
    repItems env (normList xs) = repItems env xs)
  ∧ (∀ es : List (MapKey × GVal), sizeOf es ≤ N → wfEntries es = true →
    mapMsgEntries env (normEntries es) = mapMsgEntries env es)

theorem normInvariance (env : Env)
    (hf : ∀ u, env.foreignFmt (normG u) = env.foreignFmt u) :
    ∀ N, NormInv env N := by
  intro N
  induction N using Nat.strong_induction_on with
  | _ N ih =>
    have IBody : ∀ sl : List (String × GVal), sizeOf sl < N →
        wfSlots sl = true →
        ∀ fs, bodyFields env fs (normSlots sl) = bodyFields env fs sl :=
      fun sl h hw => (ih (sizeOf sl) h).2.1 sl le_rfl hw
    have IC : ∀ v : GVal, sizeOf v < N → wfG v = true →
        msgJ env (normG v) = msgJ env v :=
      fun v h hw => (ih (sizeOf v) h).2.2.1 v le_rfl hw
    have ID : ∀ xs : List GVal, sizeOf xs < N → wfList xs = true →
        repItems env (normList xs) = repItems env xs :=
      fun xs h hw => (ih (sizeOf xs) h).2.2.2.1 xs le_rfl hw
    have IE : ∀ es : List (MapKey × GVal), sizeOf es < N →
        wfEntries es = true →
        mapMsgEntries env (normEntries es) = mapMsgEntries env es :=
      fun es h hw => (ih (sizeOf es) h).2.2.2.2 es le_rfl hw
    have hC : ∀ v : GVal, sizeOf v ≤ N → wfG v = true →
        msgJ env (normG v) = msgJ env v := by
      intro v hv hw
      cases v with
      | vMsg n isl =>
        have hsz : sizeOf isl < N := by
          simp only [GVal.vMsg.sizeOf_spec] at hv
          omega
        have hwsl : wfSlots isl = true := by simpa [wfG] using hw
        simp only [normG]
        rw [msgJ_vMsg, msgJ_vMsg]
        by_cases hr : env.hasRedact n
        · simp only [hr, if_true]
          rw [IBody isl hsz hwsl]
        · have hff := hf (GVal.vMsg n isl)
          simp only [normG] at hff
          simp [hr, hff]
      | vNull => simp [normG, msgJ]
      | vStr s => simp [normG, msgJ]
      | vInt n => simp [normG, msgJ]
      | vFlt n => simp [normG, msgJ]
      | vBool b => simp [normG, msgJ]
      | vBytes bs => simp [normG, msgJ]
      | vEnum n => simp [normG, msgJ]
      | vList xs => simp [normG, msgJ]
      | vMap es => simp [normG, msgJ]
    have hD : ∀ xs : List GVal, sizeOf xs ≤ N → wfList xs = true →
        repItems env (normList xs) = repItems env xs := by
      intro xs hxs hw
      cases xs with
      | nil => simp [normList]
      | cons x rest =>
        have hszx : sizeOf x < N := by
          simp only [List.cons.sizeOf_spec] at hxs
          omega
        have hszr : sizeOf rest < N := by
          simp only [List.cons.sizeOf_spec] at hxs
          omega
        simp only [wfList, Bool.and_eq_true] at hw
        simp only [normList]
        rw [repItems_cons, repItems_cons]
        congr 1
        · cases x with
          | vMsg n isl =>
            have hx := IC (GVal.vMsg n isl) hszx hw.1
            simpa [normG] using hx
          | vNull => simp [normG]
          | vStr s => simp [normG]
          | vInt n => simp [normG]
          | vFlt n => simp [normG]
          | vBool b => simp [normG]
          | vBytes bs => simp [normG]
          | vEnum n => simp [normG]
          | vList ys => simp [normG]
          | vMap es => simp [normG]
        · exact ID rest hszr hw.2
    have hE : ∀ es : List (MapKey × GVal), sizeOf es ≤ N →
        wfEntries es = true →
        mapMsgEntries env (normEntries es) = mapMsgEntries env es := by
      intro es hes hw
      cases es with
      | nil => simp [normEntries]
      | cons e rest =>
        obtain ⟨mkey, v⟩ := e
        have hszv : sizeOf v < N := by
          simp only [List.cons.sizeOf_spec, Prod.mk.sizeOf_spec] at hes
          omega
        have hszr : sizeOf rest < N := by
          simp only [List.cons.sizeOf_spec, Prod.mk.sizeOf_spec] at hes
          omega
        simp only [wfEntries, Bool.and_eq_true] at hw
        simp only [normEntries]
        cases v with
        | vMsg n isl =>
          simp only [normG, mapMsgEntries]
          have hx := IC (GVal.vMsg n isl) hszv hw.1
          simp only [normG] at hx
          rw [hx, IE rest hszr hw.2]
        | vNull => simp only [normG, mapMsgEntries]; exact IE rest hszr hw.2
        | vStr s => simp only [normG, mapMsgEntries]; exact IE rest hszr hw.2
        | vInt n => simp only [normG, mapMsgEntries]; exact IE rest hszr hw.2
        | vFlt n => simp only [normG, mapMsgEntries]; exact IE rest hszr hw.2
        | vBool b => simp only [normG, mapMsgEntries]; exact IE rest hszr hw.2
        | vBytes bs =>
          simp only [normG, mapMsgEntries]; exact IE rest hszr hw.2
        | vEnum n => simp only [normG, mapMsgEntries]; exact IE rest hszr hw.2
        | vList ys => simp only [normG, mapMsgEntries]; exact IE rest hszr hw.2
        | vMap es2 => simp only [normG, mapMsgEntries]; exact IE rest hszr hw.2
    have hB : ∀ sl : List (String × GVal), sizeOf sl ≤ N → wfSlots sl = true →
        ∀ r, applyRule env r (normSlots sl) = applyRule env r sl := by
      intro sl hsl hw r
      cases r with
      | maskRepeated k => simp [applyRule]
      | maskMap k => simp [applyRule]
      | maskMessage k => simp [applyRule]
      | maskInt k v => simp [applyRule]
      | maskFloat k v => simp [applyRule]
      | maskBool k v => simp [applyRule]
      | maskBytes k v => simp [applyRule]
      | maskEnum k v => simp [applyRule]
      | maskString k v => simp [applyRule]
      | mapField k g vim =>
        rw [applyRule_mapField, applyRule_mapField, slotGet_norm]
        cases hsg : slotGet sl g with
        | none => rfl
        | some v =>
          have hszv := slotGet_sizeOf hsg
          have hwv := slotGet_wf hw hsg
          cases v with
          | vMap es =>
            have hsize : sizeOf es < N := by
              simp only [GVal.vMap.sizeOf_spec] at hszv
              omega
            simp only [wfG, Bool.and_eq_true, decide_eq_true_eq] at hwv
            obtain ⟨hkeys, hwes⟩ := hwv
            simp only [Option.map_some', normG]
            have hlen : (List.insertionSort entLe (normEntries es)).length =
                es.length :=
              ((List.perm_insertionSort entLe _).length_eq).trans
                (normEntries_length es)
            have hie := isEmpty_eq_of_length_eq hlen
            have hkeysperm :
                ((List.insertionSort entLe (normEntries es)).map
                    (fun e => keyText e.1)).Perm
                  (es.map (fun e => keyText e.1)) := by
              have h1 := (List.perm_insertionSort entLe (normEntries es)).map
                (fun e => keyText e.1)
              rw [normEntries_keys] at h1
              exact h1
            rw [hie]
            by_cases hemp : es.isEmpty
            · simp [hemp]
            · simp only [hemp, if_false]
              cases vim with
              | true =>
                simp only [if_true]
                have hperm : (mapMsgEntries env
                      (List.insertionSort entLe (normEntries es))).Perm
                    (mapMsgEntries env (normEntries es)) := by
                  rw [mapMsgEntries_eq_filterMap, mapMsgEntries_eq_filterMap]
                  exact (List.perm_insertionSort entLe _).filterMap _
                have hnd : ((mapMsgEntries env
                    (List.insertionSort entLe (normEntries es))).map
                      Prod.fst).Nodup := by
                  rw [mapMsgEntries_eq_filterMap]
                  exact List.Nodup.sublist (filterMap_keys_sublist env _)
                    (hkeysperm.nodup_iff.mpr hkeys)
                rw [canonObj_perm hperm hnd, IE es hsize hwes]
              | false =>
                simp only [Bool.false_eq_true, if_false]
                have hperm : ((List.insertionSort entLe (normEntries es)).map
                      (fun e => (keyText e.1, scalarJ e.2))).Perm
                    (es.map (fun e => (keyText e.1, scalarJ e.2))) := by
                  have h1 := (List.perm_insertionSort entLe
                    (normEntries es)).map (fun e => (keyText e.1, scalarJ e.2))
                  rw [normEntries_map_scalar] at h1
                  exact h1
                have hnd : (((List.insertionSort entLe (normEntries es)).map
                    (fun e => (keyText e.1, scalarJ e.2))).map
                      Prod.fst).Nodup := by
                  rw [List.map_map]
                  exact hkeysperm.nodup_iff.mpr hkeys
                rw [canonObj_perm hperm hnd]
          | vNull => simp [normG]
          | vStr s => simp [normG]
          | vInt n => simp [normG]
          | vFlt n => simp [normG]
          | vBool b => simp [normG]
          | vBytes bs => simp [normG]
          | vEnum n => simp [normG]
          | vMsg n isl => simp [normG]
          | vList ys => simp [normG]
      | repMsgField k g =>
        rw [applyRule_repMsgField, applyRule_repMsgField, slotGet_norm]
        cases hsg : slotGet sl g with
        | none => rfl
        | some v =>
          have hszv := slotGet_sizeOf hsg
          have hwv := slotGet_wf hw hsg
          cases v with
          | vList xs =>
            have hsize : sizeOf xs < N := by
              simp only [GVal.vList.sizeOf_spec] at hszv
              omega
            have hwxs : wfList xs = true := by simpa [wfG] using hwv
            simp only [Option.map_some', normG]
            rw [isEmpty_eq_of_length_eq (normList_length xs)]
            by_cases hemp : xs.isEmpty
            · simp [hemp]
            · simp only [hemp, if_false]
              rw [ID xs hsize hwxs]
          | vNull => simp [normG]
          | vStr s => simp [normG]
          | vInt n => simp [normG]
          | vFlt n => simp [normG]
          | vBool b => simp [normG]
          | vBytes bs => simp [normG]
          | vEnum n => simp [normG]
          | vMsg n isl => simp [normG]
          | vMap es => simp [normG]
      | repScalarField k g =>
        rw [applyRule_repScalarField, applyRule_repScalarField, slotGet_norm]
        cases hsg : slotGet sl g with
        | none => rfl
        | some v =>
          cases v with
          | vList xs =>
            simp only [Option.map_some', normG]
            rw [isEmpty_eq_of_length_eq (normList_length xs),
              normList_map_scalarJ]
          | vNull => simp [normG]
          | vStr s => simp [normG]
          | vInt n => simp [normG]
          | vFlt n => simp [normG]
          | vBool b => simp [normG]
          | vBytes bs => simp [normG]
          | vEnum n => simp [normG]
          | vMsg n isl => simp [normG]
          | vMap es => simp [normG]
      | oneofMsgField k g =>
        rw [applyRule_oneofMsgField, applyRule_oneofMsgField, slotGet_norm]
        cases hsg : slotGet sl g with
        | none => rfl
        | some v =>
          have hszv := slotGet_sizeOf hsg
          have hwv := slotGet_wf hw hsg
          cases v with
          | vMsg n isl =>
            have hsize : sizeOf (GVal.vMsg n isl) < N := by omega
            have hx := IC (GVal.vMsg n isl) hsize hwv
            simp only [Option.map_some', normG]
            simp only [normG] at hx
            rw [hx]
          | vNull => simp [normG]
          | vStr s => simp [normG]
          | vInt n => simp [normG]
          | vFlt n => simp [normG]
          | vBool b => simp [normG]
          | vBytes bs => simp [normG]
          | vEnum n => simp [normG]
          | vList ys => simp [normG]
          | vMap es => simp [normG]
      | singularMsgField k g =>
        rw [applyRule_singularMsgField, applyRule_singularMsgField,
          slotGet_norm]
        cases hsg : slotGet sl g with
        | none => rfl
        | some v =>
          have hszv := slotGet_sizeOf hsg
          have hwv := slotGet_wf hw hsg
          cases v with
          | vMsg n isl =>
            have hsize : sizeOf (GVal.vMsg n isl) < N := by omega
            have hx := IC (GVal.vMsg n isl) hsize hwv
            simp only [Option.map_some', normG]
            simp only [normG] at hx
            rw [hx]
          | vNull => simp [normG]
          | vStr s => simp [normG]
          | vInt n => simp [normG]
          | vFlt n => simp [normG]
          | vBool b => simp [normG]
          | vBytes bs => simp [normG]
          | vEnum n => simp [normG]
          | vList ys => simp [normG]
          | vMap es => simp [normG]
      | oneofScalarField k g zk =>
        rw [applyRule_oneofScalarField, applyRule_oneofScalarField,
          slotGet_norm]
        cases hsg : slotGet sl g with
        | none => rfl
        | some v => cases v <;> simp [normG]
      | plainScalarField k g =>
        rw [applyRule_plainScalarField, applyRule_plainScalarField,
          slotGet_norm]
        cases hsg : slotGet sl g with
        | none => rfl
        | some v => cases v <;> simp [normG]
    have hBody : ∀ sl : List (String × GVal), sizeOf sl ≤ N →
        wfSlots sl = true →
        ∀ fs, bodyFields env fs (normSlots sl) = bodyFields env fs sl := by
      intro sl hsz hwsl fs
      induction fs with
      | nil => simp [bodyFields]
      | cons f rest ihf =>
        simp only [bodyFields]
        rw [hB sl hsz hwsl (genFieldRule f), ihf]
    exact ⟨hB, hBody, hC, hD, hE⟩

/-- Invariance of the generated `Redact()` output under canonicalization of
map iteration order, for well-formed instances and an environment whose
foreign formatter is itself insensitive to map order (as `protojson` is). -/
theorem RedactMethod_norm (env : Env)
    (hf : ∀ u, env.foreignFmt (normG u) = env.foreignFmt u)
    (v : GVal) (hw : wfG v = true) :
    RedactMethod env (some (normG v)) = RedactMethod env (some v) := by
  cases v with
  | vMsg n sl =>
    have h := (normInvariance env hf (sizeOf sl)).2.1 sl le_rfl
      (by simpa [wfG] using hw) (env.fieldsOf n)
    simp only [normG, RedactMethod]
    rw [h]
  | vNull => simp [normG]
  | vStr s => simp [normG]
  | vInt n => simp [normG]
  | vFlt n => simp [normG]
  | vBool b => simp [normG]
  | vBytes bs => simp [normG]
  | vEnum n => simp [normG]
  | vList xs => simp [normG, RedactMethod]
  | vMap es => simp [normG, RedactMethod]

/-! ## State-passing translation (frame property of the generated method) -/

/-- State-passing translation of the generated method body: every statement
emitted by the template reads the receiver only (field accesses, getters,
`len`, `range`) and writes only the local `m`/`mapVal`/`items` values, so
each per-field step returns the receiver it was given. -/
def bodyFieldsSt (env : Env) (fs : List fieldDesc)
    (sl : List (String × GVal)) :
    (List (String × GVal)) × List (String × JVal) :=
  match fs with
  | [] => (sl, [])
  | f :: rest =>
    let s1 := (sl, applyRule env (genFieldRule f) sl)
    let s2 := bodyFieldsSt env rest s1.1
    (s2.1, s1.2 ++ s2.2)

/-- State-passing translation of the generated `Redact()` method, returning
the receiver after the call together with the produced document. -/
def RedactMethodSt (env : Env) (x : Option GVal) :
    (Option GVal) × String :=
  match x with
  | none => (none, emptyObjLit)
  | some (.vMsg n sl) =>
    let r := bodyFieldsSt env (env.fieldsOf n) sl
    (some (.vMsg n r.1), jrender (.obj (canonObj r.2)))
  | some v => (some v, emptyObjLit)

theorem bodyFieldsSt_spec (env : Env) (fs : List fieldDesc)
    (sl : List (String × GVal)) :
    (bodyFieldsSt env fs sl).1 = sl ∧
      (bodyFieldsSt env fs sl).2 = bodyFields env fs sl := by
  induction fs with
  | nil => simp [bodyFieldsSt, bodyFields_nil]
  | cons f rest ih =>
    simp only [bodyFieldsSt, bodyFields_cons]
    exact ⟨ih.1, by rw [ih.2]⟩

/-! ## Requirement propagation (`CollectGlobalRedactRequirements`) -/

/-- Modelled from the spec: the shapes through which a `MessageType` can
reference another in the propagation graph of §4.3 — directly (a singular
message field), through a repeated field, through a map value, or through a
oneof alternative.  The implementing package `internal/redact` is not among
the sources at hand; only its caller is. -/
inductive PRef where
  | direct (target : String)
  | inRepeated (target : String)
  | inMapValue (target : String)
  | inOneof (target : String)
deriving Repr, DecidableEq

/-- Modelled from the spec: the referenced message type name. -/
def PRef.target : PRef → String
  | .direct t => t
  | .inRepeated t => t
  | .inMapValue t => t
  | .inOneof t => t

/-- Modelled from the spec: a `FieldSpec` as the Requirement Propagator
sees it — its explicit redact flag and, for message-typed fields (in any of
the four reference shapes), the target type. -/
structure PField where
  redact : Bool := false
  ref : Option PRef := none
deriving Repr, DecidableEq

/-- Modelled from the spec: a `MessageType` of the compilation unit with
its defining file and its field specs. -/
structure PMsg where
  name : String
  file : String
  fields : List PField
deriving Repr, DecidableEq

/-- Modelled from the spec: the type owns at least one `redact=true`
`FieldSpec` (§4.3 step 1). -/
def ownsRedact (m : PMsg) : Bool := m.fields.any (fun f => f.redact)

/-- Modelled from the spec: the type references (through any of the four
shapes) a type currently marked (§4.3 step 2). -/
def refsMarked (m : PMsg) (R : Finset String) : Bool :=
  m.fields.any (fun f =>
    match f.ref with
    | some r => decide (r.target ∈ R)
    | none => false)

/-- Modelled from the spec: one full marking pass over the whole
compilation unit (§4.3): a message is marked when it owns a redact field or
references a marked type. -/
def stepMarks (unit : List PMsg) (R : Finset String) : Finset String :=
  ((unit.filter (fun m => ownsRedact m || refsMarked m R)).map
    PMsg.name).toFinset

/-- Modelled from the spec: Kleene iteration of marking passes until one
pass adds no new marks. -/
def marksIter (unit : List PMsg) : Nat → Finset String → Finset String
  | 0, R => R
  | n + 1, R =>
    let R2 := stepMarks unit R
    if R2 = R then R else marksIter unit n R2

/-- Modelled from the spec: `CollectGlobalRedactRequirements` — the
RequirementSet of the whole compilation unit (all loaded files), computed
as the least fixpoint of the marking pass starting from no marks; one more
pass than there are message types always suffices to reach the fixpoint. -/
def collectGlobalRedactRequirements (unit : List PMsg) : Finset String :=
  marksIter unit (unit.length + 1) ∅

theorem mem_stepMarks {unit : List PMsg} {R : Finset String} {x : String} :
    x ∈ stepMarks unit R ↔
      ∃ m ∈ unit, m.name = x ∧ (ownsRedact m || refsMarked m R) = true := by
  simp only [stepMarks, List.mem_toFinset, List.mem_map, List.mem_filter]
  constructor
  · rintro ⟨m, ⟨hm, hcond⟩, hname⟩
    exact ⟨m, hm, hname, hcond⟩
  · rintro ⟨m, hm, hname, hcond⟩
    exact ⟨m, ⟨hm, hcond⟩, hname⟩

theorem refsMarked_mono {m : PMsg} {R S : Finset String} (h : R ⊆ S)
    (hr : refsMarked m R = true) : refsMarked m S = true := by
  simp only [refsMarked, List.any_eq_true] at hr ⊢
  obtain ⟨f, hf, hcond⟩ := hr
  refine ⟨f, hf, ?_⟩
  cases href : f.ref with
  | none => rw [href] at hcond; simp at hcond
  | some r =>
    rw [href] at hcond
    simp only [decide_eq_true_eq] at hcond ⊢
    exact h hcond

theorem stepMarks_mono {unit : List PMsg} {R S : Finset String}
    (h : R ⊆ S) : stepMarks unit R ⊆ stepMarks unit S := by
  intro x hx
  rw [mem_stepMarks] at hx ⊢
  obtain ⟨m, hm, hname, hcond⟩ := hx
  refine ⟨m, hm, hname, ?_⟩
  simp only [Bool.or_eq_true] at hcond ⊢
  rcases hcond with howns | hrefs
  · exact Or.inl howns
  · exact Or.inr (refsMarked_mono h hrefs)

/-- Every mark names a message of the unit. -/
theorem stepMarks_subset_names (unit : List PMsg) (R : Finset String) :
    stepMarks unit R ⊆ (unit.map PMsg.name).toFinset := by
  intro x hx
  rw [mem_stepMarks] at hx
  obtain ⟨m, hm, hname, _⟩ := hx
  rw [List.mem_toFinset, List.mem_map]
  exact ⟨m, hm, hname⟩

theorem marksIter_fix (unit : List PMsg) :
    ∀ n (R : Finset String), R ⊆ stepMarks unit R →
      (unit.map PMsg.name).toFinset.card ≤ R.card + n →
      stepMarks unit (marksIter unit n R) = marksIter unit n R := by
  intro n
  induction n with
  | zero =>
    intro R hext hcard
    have hsub : R ⊆ (unit.map PMsg.name).toFinset :=
      fun x hx => stepMarks_subset_names unit R (hext hx)
    have hReq : R = (unit.map PMsg.name).toFinset :=
      Finset.eq_of_subset_of_card_le hsub (by omega)
    have h2 : stepMarks unit R ⊆ R := by
      rw [hReq]
      exact stepMarks_subset_names unit _
    simp only [marksIter]
    exact Finset.Subset.antisymm h2 hext
  | succ n ihn =>
    intro R hext hcard
    simp only [marksIter]
    by_cases hfix : stepMarks unit R = R
    · simp only [hfix, if_true]
    · simp only [hfix, if_false]
      have hss : R ⊂ stepMarks unit R :=
        Finset.ssubset_iff_subset_ne.mpr ⟨hext, fun h => hfix h.symm⟩
      have hlt : R.card < (stepMarks unit R).card := Finset.card_lt_card hss
      exact ihn (stepMarks unit R) (stepMarks_mono hext)
        (by omega)

theorem collect_fix (unit : List PMsg) :
    stepMarks unit (collectGlobalRedactRequirements unit) =
      collectGlobalRedactRequirements unit := by
  unfold collectGlobalRedactRequirements
  apply marksIter_fix
  · intro x hx
    exact absurd hx (Finset.not_mem_empty x)
  · have h1 := List.toFinset_card_le (unit.map PMsg.name)
    have h2 : (unit.map PMsg.name).length = unit.length := List.length_map _ _
    simp only [Finset.card_empty]
    omega

theorem refsMarked_iff (m : PMsg) (R : Finset String) :
    refsMarked m R = true ↔
      ∃ f ∈ m.fields, ∃ r, f.ref = some r ∧ r.target ∈ R := by
  simp only [refsMarked, List.any_eq_true]
  constructor
  · rintro ⟨f, hf, hcond⟩
    cases href : f.ref with
    | none => rw [href] at hcond; simp at hcond
    | some r =>
      rw [href] at hcond
      simp only [decide_eq_true_eq] at hcond
      exact ⟨f, hf, r, href, hcond⟩
  · rintro ⟨f, hf, r, href, htgt⟩
    refine ⟨f, hf, ?_⟩
    rw [href]
    simpa using htgt

/-! ## Remaining helpers for the claim theorems -/

/-- A trivial environment (no schema, no redact capability anywhere, empty
foreign formatting), used to evaluate single emitted statements. -/
def envTriv : Env where
  schema := []
  hasRedact := fun _ => false
  foreignFmt := fun _ => ""

theorem repItems_eq_map (env : Env) (xs : List GVal) :
    repItems env xs = xs.map (fun x =>
      match x with
      | .vMsg n isl => msgJ env (.vMsg n isl)
      | _ => JVal.null) := by
  induction xs with
  | nil => simp [repItems_nil]
  | cons x rest ih => rw [repItems_cons, List.map_cons, ih]

theorem mem_mapMsgFun_keys (env : Env) (es : List (MapKey × GVal))
    (k : String) :
    k ∈ (es.filterMap (mapMsgFun env)).map Prod.fst ↔
      ∃ e ∈ es, (∃ n isl, e.2 = GVal.vMsg n isl) ∧ keyText e.1 = k := by
  induction es with
  | nil => simp
  | cons e rest ih =>
    obtain ⟨mkey, v⟩ := e
    cases v <;> simp [mapMsgFun, List.filterMap_cons, ih, eq_comm] <;> tauto

/-! ## Claim theorems -/

/-- C1: For every MessageType in the compilation unit (all loaded files),
RequirementSet is true iff the type owns at least one redact=true FieldSpec
or references (directly, through a repeated field, through a map value, or
through a oneof alternative) a MessageType with RequirementSet=true.  The
cyclic and cross-file scenarios of the claim follow from this fixpoint
equivalence and are exercised by the witness.  The propagator is modelled
from the spec (§4.3), as `CollectGlobalRedactRequirements` of
`internal/redact` is not among the sources. -/
theorem c1_requirement_fixpoint (unit : List PMsg) (m : PMsg)
    (hnd : (unit.map PMsg.name).Nodup) (hm : m ∈ unit) :
    m.name ∈ collectGlobalRedactRequirements unit ↔
      (ownsRedact m = true ∨
        ∃ f ∈ m.fields, ∃ r, f.ref = some r ∧
          r.target ∈ collectGlobalRedactRequirements unit) := by
  have hfix := collect_fix unit
  constructor
  · intro h
    rw [← hfix, mem_stepMarks] at h
    obtain ⟨m2, hm2, hname, hcond⟩ := h
    have hEq : m2 = m := List.inj_on_of_nodup_map hnd hm2 hm hname
    subst hEq
    simp only [Bool.or_eq_true] at hcond
    rcases hcond with h1 | h2
    · exact Or.inl h1
    · exact Or.inr ((refsMarked_iff m2 _).mp h2)
  · intro h
    rw [← hfix, mem_stepMarks]
    refine ⟨m, hm, rfl, ?_⟩
    simp only [Bool.or_eq_true]
    rcases h with h1 | h2
    · exact Or.inl h1
    · exact Or.inr ((refsMarked_iff m _).mpr h2)

/-- The cyclic two-file compilation unit of the claim: `A` (file a.proto)
owns a redact=true scalar field and references a sequence of `B`;
`B` (file b.proto) has no local redact field and references a sequence of
`A`. -/
def demoA : PMsg :=
  { name := "A", file := "a.proto",
    fields := [{ redact := true }, { ref := some (.inRepeated "B") }] }

/-- The referencing message of the other file; see `demoA`. -/
def demoB : PMsg :=
  { name := "B", file := "b.proto",
    fields := [{ ref := some (.inRepeated "A") }] }

/-- The two-file compilation unit of the cyclic scenario. -/
def demoUnit : List PMsg := [demoA, demoB]

theorem c1_requirement_fixpoint_witness :
    (demoB.name ∈ collectGlobalRedactRequirements demoUnit ↔
      (ownsRedact demoB = true ∨
        ∃ f ∈ demoB.fields, ∃ r, f.ref = some r ∧
          r.target ∈ collectGlobalRedactRequirements demoUnit))
    ∧ "A" ∈ collectGlobalRedactRequirements demoUnit
    ∧ "B" ∈ collectGlobalRedactRequirements demoUnit :=
  ⟨c1_requirement_fixpoint demoUnit demoB (by decide) (by decide),
    by decide, by decide⟩

/-- The failing input of C2: a redact=true integer field with no declared
override, exactly the shape the benchmark data of the package uses
(`fieldDesc{GoName: "RedactCount", JSONName: "redactCount",
IsInteger: true, Redact: true}`). -/
def c2IntField : fieldDesc :=
  { GoName := "RedactCount", JSONName := "redactCount", Redact := true,
    IsInteger := true }

/-- A redact=true boolean field (also reaches the faulty `.IsNumeric`
test). -/
def c2BoolField : fieldDesc :=
  { GoName := "RedactBool", JSONName := "redactBool", Redact := true,
    IsBool := true }

/-- A redact=true singular message field. -/
def c2MsgField : fieldDesc :=
  { GoName := "RedactOwner", JSONName := "redactOwner", Redact := true,
    IsMessage := true }

/-- A redact=true repeated field. -/
def c2RepField : fieldDesc :=
  { GoName := "RedactTags", JSONName := "redactTags", Redact := true,
    IsRepeated := true }

/-- A redact=true map field with a (forbidden, silently ignored) scalar
mask override declared. -/
def c2MapField : fieldDesc :=
  { GoName := "RedactLabels", JSONName := "redactLabels", Redact := true,
    IsMap := true, IntMask := 7 }

/-- C2 (code bug): the claim expects a redact=true integer field with no
declared override to be emitted as the number `0` (and bool as `false`,
etc.).  The redact=true chain of the template, however, tests `.IsNumeric`,
a name the `fieldDesc` struct does not declare (it declares `IsInteger`),
so `text/template` execution fails with `cannot evaluate field IsNumeric`
for every redact=true scalar field, and `execute()` panics — contradicting
the tests, benchmarks and README of the package itself.  The composite parts
of the claim (message → null, repeated → [], map → {}, with scalar mask
overrides ignored) sit in branches before the faulty test and behave as
claimed, as the remaining conjuncts evaluate. -/
theorem c2_redact_integer_template_error :
    tplFieldRule c2IntField =
      Except.error "cannot evaluate field IsNumeric in type *main.fieldDesc"
    ∧ tplFieldRule c2BoolField =
      Except.error "cannot evaluate field IsNumeric in type *main.fieldDesc"
    ∧ genFieldRule c2IntField = .maskInt "redactCount" 0
    ∧ applyRule envTriv (.maskInt "redactCount" 0) [] =
        [("redactCount", JVal.num 0)]
    ∧ applyRule envTriv (genFieldRule c2MsgField) [] =
        [("redactOwner", JVal.null)]
    ∧ applyRule envTriv (genFieldRule c2RepField) [] =
        [("redactTags", JVal.arr [])]
    ∧ applyRule envTriv (genFieldRule c2MapField) [] =
        [("redactLabels", JVal.obj [])] := by
  refine ⟨rfl, rfl, rfl, ?_, ?_, ?_, ?_⟩ <;>
    simp [applyRule, genFieldRule, c2IntField, c2MsgField, c2RepField,
      c2MapField]

/-- C3: for every message type whose fields compile through the template
(a generated type), calling the generated `Redact()` on an absent (nil)
instance returns exactly the two-character empty-object literal, and the
operation is a total function (it cannot fail). -/
theorem c3_nil_redact_empty_object (env : Env) (fs : List fieldDesc)
    (rs : List EmitRule) (hgen : fs.mapM tplFieldRule = Except.ok rs) :
    RedactMethod env none = emptyObjLit := rfl

theorem c3_nil_redact_empty_object_witness :
    [{ GoName := "Name", JSONName := "name" : fieldDesc }].mapM tplFieldRule =
      Except.ok [.plainScalarField "name" "Name"]
    ∧ RedactMethod envTriv none = emptyObjLit :=
  ⟨rfl, c3_nil_redact_empty_object envTriv
    [{ GoName := "Name", JSONName := "name" }]
    [.plainScalarField "name" "Name"] rfl⟩

/-- The two-field message of the C4 counterexample: a redacted map declared
first, a plain string declared second (declaration order
`["secrets", "name"]`). -/
def c4Fields : List fieldDesc :=
  [{ GoName := "Secrets", JSONName := "secrets", Redact := true,
     IsMap := true },
   { GoName := "Name", JSONName := "name" }]

/-- Environment of the C4 counterexample. -/
def c4Env : Env where
  schema := [("M", c4Fields)]
  hasRedact := fun n => n == "M"
  foreignFmt := fun _ => ""

/-- C4 counterexample: the claim predicts output keys in declaration order
`["secrets", "name"]`; the generated code builds a `map[string]any` and
`json.Marshal` renders map keys in bytewise-sorted order, so the output
keys are `["name", "secrets"]`. -/
theorem c4_declaration_order_counterexample :
    ((canonObj (bodyFields c4Env (c4Env.fieldsOf "M")
        [("Secrets", .vMap [(.str "x", .vStr "v")]),
         ("Name", .vStr "John")])).map Prod.fst) = ["name", "secrets"]
    ∧ (c4Env.fieldsOf "M").map fieldDesc.JSONName = ["secrets", "name"]
    ∧ (["name", "secrets"] : List String) ≠ ["secrets", "name"] := by
  refine ⟨?_, by decide, by decide⟩
  simp [bodyFields_cons, bodyFields_nil, applyRule, c4Env, Env.fieldsOf,
    c4Fields, genFieldRule, scalarJ, slotGet, canonObj, List.lookup,
    List.insertionSort, List.orderedInsert, strLeP, strLeB, chLe, List.dedup]

/-- C4 amended: for every message type and instance, the generated
`Redact()` output is the rendering of a single JSON object whose keys are
pairwise distinct and appear in bytewise ascending order (deterministic,
but the sorted order of the output names — not the declaration order). -/
theorem c4_keys_sorted (env : Env) (n : String)
    (sl : List (String × GVal)) :
    ((canonObj (bodyFields env (env.fieldsOf n) sl)).map Prod.fst).Sorted
        strLeP
    ∧ ((canonObj (bodyFields env (env.fieldsOf n) sl)).map Prod.fst).Nodup
    ∧ RedactMethod env (some (.vMsg n sl)) =
        jrender (.obj (canonObj (bodyFields env (env.fieldsOf n) sl))) :=
  ⟨canonObj_keys_sorted _, canonObj_keys_nodup _, rfl⟩

/-- The repeated-message field of the C5 counterexample. -/
def c5Field : fieldDesc :=
  { GoName := "Users", JSONName := "users", IsMessage := true,
    IsRepeated := true }

/-- C5 counterexample: the claim says a null element of a non-redacted
repeated field is skipped and does not appear as a placeholder; the
generated code pre-allocates `items := make([]any, len(x.F))` and only
skips the assignment, so the slot of the nil element stays `nil`, rendered as
JSON null. -/
theorem c5_null_element_counterexample :
    tplFieldRule c5Field = Except.ok (.repMsgField "users" "Users")
    ∧ applyRule envTriv (.repMsgField "users" "Users")
        [("Users", .vList [GVal.vNull])] = [("users", JVal.arr [JVal.null])]
    ∧ JVal.arr [JVal.null] ≠ JVal.arr [] := by
  refine ⟨rfl, ?_, by simp⟩
  simp [applyRule_repMsgField, slotGet, repItems_cons, repItems_nil]

/-- C5 amended: for every non-redacted repeated message field, the emitted
sequence maps the input elements in their original order (length
preserved): each non-null element is processed by the singular-field rule
(recursive redaction when its type has the capability, foreign formatting
otherwise), and each null element contributes a JSON null placeholder at
its original position. -/
theorem c5_repeated_elements (env : Env) (f : fieldDesc)
    (hok : tplFieldRule f = Except.ok (.repMsgField f.JSONName f.GoName))
    (sl : List (String × GVal)) (xs : List GVal)
    (hslot : slotGet sl f.GoName = some (.vList xs)) (hne : xs ≠ []) :
    applyRule env (genFieldRule f) sl =
      [(f.JSONName, JVal.arr (xs.map (fun x =>
        match x with
        | .vMsg n isl => msgJ env (.vMsg n isl)
        | _ => JVal.null)))]
    ∧ (xs.map (fun x =>
        match x with
        | .vMsg n isl => msgJ env (.vMsg n isl)
        | _ => JVal.null)).length = xs.length
    ∧ ((fun x =>
        match x with
        | .vMsg n isl => msgJ env (.vMsg n isl)
        | _ => JVal.null) GVal.vNull) = JVal.null := by
  have hr := tpl_gen_agree hok
  rw [hr]
  refine ⟨?_, by simp, rfl⟩
  rw [applyRule_repMsgField, hslot]
  have hie : xs.isEmpty = false := by
    cases xs
    · exact absurd rfl hne
    · rfl
  simp only [hie, Bool.false_eq_true, if_false]
  rw [repItems_eq_map]

theorem c5_repeated_elements_witness :
    applyRule envTriv (genFieldRule c5Field)
        [("Users", .vList [GVal.vNull, .vMsg "U" []])] =
      [("users", JVal.arr ([GVal.vNull, .vMsg "U" []].map (fun x =>
        match x with
        | .vMsg n isl => msgJ envTriv (.vMsg n isl)
        | _ => JVal.null)))]
    ∧ ([GVal.vNull, .vMsg "U" []].map (fun x =>
        match x with
        | .vMsg n isl => msgJ envTriv (.vMsg n isl)
        | _ => JVal.null)).length = [GVal.vNull, .vMsg "U" []].length
    ∧ ((fun x =>
        match x with
        | .vMsg n isl => msgJ envTriv (.vMsg n isl)
        | _ => JVal.null) GVal.vNull) = JVal.null :=
  c5_repeated_elements envTriv c5Field rfl
    [("Users", .vList [GVal.vNull, .vMsg "U" []])]
    [GVal.vNull, .vMsg "U" []] (by simp [slotGet, c5Field]) (by simp)

/-- The non-redacted scalar oneof alternative of C6 (a string alternative
of a oneof, as `token` in the `OneofWithRedact` testdata of the package). -/
def c6Field : fieldDesc :=
  { GoName := "Token", JSONName := "token", IsOneof := true }

/-- A redact=true string oneof alternative (as `api_key` in the testdata),
compiled at the behaviour level (its faithful template compilation hits the
`.IsNumeric` error of C2). -/
def c6RedField : fieldDesc :=
  { GoName := "ApiKey", JSONName := "apiKey", Redact := true,
    IsOneof := true, StringMask := "*" }

/-- C6 (code bug): the claim — and the plugin README ("only the set field
is included in output") — say an unset oneof alternative is absent from
the output entirely.  The generated code emits a non-redacted scalar
alternative unconditionally through its getter, so an unset alternative
contributes its zero value (here `"token":""`); and the redact=true
branches carry no set-ness check at all, so a masked alternative is
emitted even while unset (here `"apiKey":"*"`).  Only non-redacted
message-typed alternatives are guarded by `Get... != nil`.  The set half
of the claim (emission per underlying shape) matches the code. -/
theorem c6_unset_oneof_emitted :
    tplFieldRule c6Field =
      Except.ok (.oneofScalarField "token" "Token" ScalarKind.str)
    ∧ applyRule envTriv (.oneofScalarField "token" "Token" ScalarKind.str)
        [("Token", GVal.vNull)] = [("token", JVal.str "")]
    ∧ applyRule envTriv (genFieldRule c6RedField)
        [("ApiKey", GVal.vNull)] = [("apiKey", JVal.str "*")]
    ∧ [("token", JVal.str "")] ≠ ([] : List (String × JVal)) := by
  refine ⟨rfl, ?_, ?_, by simp⟩
  · simp [applyRule_oneofScalarField, slotGet, zeroJ]
  · simp [applyRule, genFieldRule, c6RedField]

/-- The message-valued map field of the C7 counterexample. -/
def c7Field : fieldDesc :=
  { GoName := "DataMap", JSONName := "dataMap", IsMap := true,
    MapValueIsMessage := true }

/-- C7 counterexample: the claim says the emitted mapping contains all
original keys of the input map; for a message-valued map the generated
loop skips nil values (`if v != nil`), so the key of a nil-valued entry is
absent — here the input map has the single key `k1` with a nil value and
the output mapping is empty. -/
theorem c7_nil_map_value_counterexample :
    tplFieldRule c7Field = Except.ok (.mapField "dataMap" "DataMap" true)
    ∧ applyRule envTriv (.mapField "dataMap" "DataMap" true)
        [("DataMap", .vMap [(.str "k1", GVal.vNull)])] =
      [("dataMap", JVal.obj [])]
    ∧ keyText (.str "k1") = "k1"
    ∧ ¬ ("k1" ∈ (([] : List (String × JVal)).map Prod.fst)) := by
  refine ⟨rfl, ?_, rfl, by simp⟩
  simp [applyRule_mapField, slotGet, mapMsgEntries_cons, mapMsgEntries_nil,
    canonObj, List.dedup, List.insertionSort]

/-- C7 amended: for every non-redacted map field, the emitted value is a
mapping over the input entries with keys in canonical textual form: for a
scalar-valued map every original key is present with its value passed
through; for a message-valued map exactly the keys of non-nil values are
present (nil-valued entries are omitted), each value recursively redacted
when its type has the capability and foreign-formatted otherwise. -/
theorem c7_map_emission (env : Env) (f : fieldDesc) (vim : Bool)
    (hok : tplFieldRule f =
      Except.ok (.mapField f.JSONName f.GoName vim))
    (sl : List (String × GVal)) (es : List (MapKey × GVal))
    (hslot : slotGet sl f.GoName = some (.vMap es)) (hne : es ≠ []) :
    applyRule env (genFieldRule f) sl =
      [(f.JSONName, JVal.obj (canonObj
        (if vim then es.filterMap (mapMsgFun env)
         else es.map (fun e => (keyText e.1, scalarJ e.2)))))]
    ∧ (∀ k : String,
        k ∈ (canonObj (es.map
            (fun e => (keyText e.1, scalarJ e.2)))).map Prod.fst ↔
          ∃ e ∈ es, keyText e.1 = k)
    ∧ (∀ k : String,
        k ∈ (canonObj (es.filterMap (mapMsgFun env))).map Prod.fst ↔
          ∃ e ∈ es, (∃ n isl, e.2 = GVal.vMsg n isl) ∧ keyText e.1 = k) := by
  have hr := tpl_gen_agree hok
  rw [hr]
  refine ⟨?_, ?_, ?_⟩
  · rw [applyRule_mapField, hslot]
    have hie : es.isEmpty = false := by
      cases es
      · exact absurd rfl hne
      · rfl
    cases vim <;>
      simp only [hie, Bool.false_eq_true, if_false, if_true,
        mapMsgEntries_eq_filterMap]
  · intro k
    rw [canonObj_keys_mem]
    simp [List.mem_map, eq_comm]
  · intro k
    rw [canonObj_keys_mem]
    exact mem_mapMsgFun_keys env es k

theorem c7_map_emission_witness :
    applyRule envTriv (genFieldRule c7Field)
        [("DataMap", .vMap [(.str "a", .vMsg "U" []),
          (.str "b", GVal.vNull)])] =
      [("dataMap", JVal.obj (canonObj
        ([((MapKey.str "a"), GVal.vMsg "U" []),
          ((MapKey.str "b"), GVal.vNull)].filterMap (mapMsgFun envTriv))))]
    ∧ (∀ k : String,
        k ∈ (canonObj ([((MapKey.str "a"), GVal.vMsg "U" []),
            ((MapKey.str "b"), GVal.vNull)].map
            (fun e => (keyText e.1, scalarJ e.2)))).map Prod.fst ↔
          ∃ e ∈ [((MapKey.str "a"), GVal.vMsg "U" []),
            ((MapKey.str "b"), GVal.vNull)], keyText e.1 = k)
    ∧ (∀ k : String,
        k ∈ (canonObj ([((MapKey.str "a"), GVal.vMsg "U" []),
            ((MapKey.str "b"), GVal.vNull)].filterMap
            (mapMsgFun envTriv))).map Prod.fst ↔
          ∃ e ∈ [((MapKey.str "a"), GVal.vMsg "U" []),
            ((MapKey.str "b"), GVal.vNull)],
            (∃ n isl, e.2 = GVal.vMsg n isl) ∧ keyText e.1 = k) := by
  have h := c7_map_emission envTriv c7Field true rfl
    [("DataMap", .vMap [(.str "a", .vMsg "U" []), (.str "b", GVal.vNull)])]
    [((MapKey.str "a"), GVal.vMsg "U" []), ((MapKey.str "b"), GVal.vNull)]
    (by simp [slotGet, c7Field]) (by simp)
  exact ⟨by simpa using h.1, h.2.1, h.2.2⟩

/-- C8: the redaction operation is a deterministic function of the
instance: two invocations on the same instance yield byte-identical
output.  The only source of run-to-run variation in the generated code is
the arbitrary Go map iteration order, so the statement quantifies over two
representations of the same instance — equal after canonicalizing every
entry order of every map — and requires the foreign formatter to be equally
order-insensitive (protojson renders map keys sorted).  `wfG` states the
Go map invariant that one map holds no duplicate (textual) keys. -/
theorem c8_output_deterministic (env : Env)
    (hf : ∀ u, env.foreignFmt (normG u) = env.foreignFmt u)
    (v₁ v₂ : GVal) (h1 : wfG v₁ = true) (h2 : wfG v₂ = true)
    (hsame : normG v₁ = normG v₂) :
    RedactMethod env (some v₁) = RedactMethod env (some v₂) := by
  have e1 := RedactMethod_norm env hf v₁ h1
  have e2 := RedactMethod_norm env hf v₂ h2
  rw [← e1, ← e2, hsame]

/-- Two iteration orders of the same two-entry map instance. -/
def c8Inst1 : GVal :=
  .vMsg "M" [("Labels", .vMap [(.str "b", .vStr "1"), (.str "a", .vStr "2")])]

/-- The other iteration order; see `c8Inst1`. -/
def c8Inst2 : GVal :=
  .vMsg "M" [("Labels", .vMap [(.str "a", .vStr "2"), (.str "b", .vStr "1")])]

theorem c8_output_deterministic_witness :
    RedactMethod envTriv (some c8Inst1) = RedactMethod envTriv (some c8Inst2) :=
  c8_output_deterministic envTriv (fun _ => rfl) c8Inst1 c8Inst2
    (by simp [c8Inst1, wfG, wfSlots, wfEntries, keyText])
    (by simp [c8Inst2, wfG, wfSlots, wfEntries, keyText])
    (by simp [c8Inst1, c8Inst2, normG, normSlots, normEntries,
      List.insertionSort, List.orderedInsert, entLe, strLeP, strLeB, chLe,
      keyText])

/-- C9: for a non-redacted field, an unset singular message (nil), an
empty repeated field, and an empty map are omitted from the output
entirely — the generated statements guard on `!= nil` / `len > 0` and
insert no placeholder.  (`singularMsgField`, `repMsgField`,
`repScalarField` and `mapField` are exactly the statement shapes the
template emits for redact=false fields of those shapes.) -/
theorem c9_empty_composites_omitted (env : Env) (k g : String) (vim : Bool)
    (sl : List (String × GVal)) :
    (slotGet sl g = some GVal.vNull →
      applyRule env (.singularMsgField k g) sl = [])
    ∧ (slotGet sl g = some (.vList []) →
      applyRule env (.repMsgField k g) sl = [])
    ∧ (slotGet sl g = some (.vList []) →
      applyRule env (.repScalarField k g) sl = [])
    ∧ (slotGet sl g = some (.vMap []) →
      applyRule env (.mapField k g vim) sl = []) := by
  refine ⟨?_, ?_, ?_, ?_⟩ <;> intro h
  · rw [applyRule_singularMsgField, h]
  · rw [applyRule_repMsgField, h]
    rfl
  · rw [applyRule_repScalarField, h]
    rfl
  · rw [applyRule_mapField, h]
    rfl

theorem c9_empty_composites_omitted_witness :
    applyRule envTriv (.singularMsgField "user" "User")
        [("User", GVal.vNull)] = []
    ∧ applyRule envTriv (.repMsgField "users" "Users")
        [("Users", .vList [])] = []
    ∧ applyRule envTriv (.mapField "labels" "Labels" true)
        [("Labels", .vMap [])] = [] :=
  ⟨(c9_empty_composites_omitted envTriv "user" "User" true
      [("User", GVal.vNull)]).1 (by simp [slotGet]),
   (c9_empty_composites_omitted envTriv "users" "Users" true
      [("Users", .vList [])]).2.1 (by simp [slotGet]),
   (c9_empty_composites_omitted envTriv "labels" "Labels" true
      [("Labels", .vMap [])]).2.2.2 (by simp [slotGet])⟩

/-- C10: invoking the redaction operation leaves the receiver instance
completely unchanged; the operation only builds a fresh value tree.  The
state-passing translation `RedactMethodSt` threads the receiver through
every emitted statement (each statement only reads the receiver), returns
it as left component, and its right component is the ordinary output. -/
theorem c10_receiver_unchanged (env : Env) (x : Option GVal) :
    (RedactMethodSt env x).1 = x ∧
      (RedactMethodSt env x).2 = RedactMethod env x := by
  cases x with
  | none => exact ⟨rfl, rfl⟩
  | some v =>
    cases v with
    | vMsg n sl =>
      have h := bodyFieldsSt_spec env (env.fieldsOf n) sl
      simp [RedactMethodSt, RedactMethod, h.1, h.2]
    | vNull => exact ⟨rfl, rfl⟩
    | vStr s => exact ⟨rfl, rfl⟩
    | vInt n => exact ⟨rfl, rfl⟩
    | vFlt n => exact ⟨rfl, rfl⟩
    | vBool b => exact ⟨rfl, rfl⟩
    | vBytes bs => exact ⟨rfl, rfl⟩
    | vEnum n => exact ⟨rfl, rfl⟩
    | vList xs => exact ⟨rfl, rfl⟩
    | vMap es => exact ⟨rfl, rfl⟩

end GoRedact
